import Mathlib

/-!
Verification of the website-builder file mutation engine.

The model below is a shallow embedding of the Python module `src/main.py`.
File contents are sequences of characters (`Content := List Char`); the
website directory is a function from file names to optional contents
(`none` meaning the file does not exist).  The files are opened in text
mode with the default universal-newlines policy, so every read first
translates CRLF and lone CR to LF (`translateNL`); writes on Linux store
the string verbatim.  Python `readlines` (translate, then split keeping
each trailing newline) is embedded as `readlines`, `writelines` as plain
concatenation, and the operations `ensure_files_exist`, `read_file`,
`write_file`, `update_file`, `get_website_state` plus the tool wrappers
keep their source names.
-/

set_option autoImplicit false

abbrev Content : Type := List Char

/-- The website directory: maps a file name to its content, `none` when the
file does not exist. -/
abbrev FSt : Type := String → Option Content

/-- The newline character. -/
def NL : Char := '\n'

/-- The three canonical file names, in source order (`FILES` in main.py). -/
def FILES : List String := ["index.html", "styles.css", "script.js"]

/-- A fresh project: no file exists yet. -/
def freshFS : FSt := fun _ => none

/-- One edit operation of a patch batch, as extracted by `update_file`:
`action = change.get("action")`, `line = change.get("line")` (an integer,
possibly negative), `content = change.get("content", "")`. -/
structure Change where
  action : String
  line : Int
  content : Content
  deriving DecidableEq

/-- Result records returned by the operations (the Python dicts). -/
inductive ToolResult where
  | error (msg : String)
  | readOk (file : String) (content : Content)
  | writeOk (status : String) (file : String)
  | updateOk (status : String) (file : String) (changes : List Change)
  deriving DecidableEq

/-- Python `list[i] = x` for `0 <= i < len` (out of range: unchanged, but
`update_file` only calls it in range). -/
def setAt {α : Type} : List α → Nat → α → List α
  | [], _, _ => []
  | _ :: ls, 0, x => x :: ls
  | l :: ls, n + 1, x => l :: setAt ls n x

/-- Python `list.insert(i, x)` for `0 <= i` (appends when `i ≥ len`,
exactly as Python does). -/
def insertAt {α : Type} : List α → Nat → α → List α
  | ls, 0, x => x :: ls
  | [], _ + 1, x => [x]
  | l :: ls, n + 1, x => l :: insertAt ls n x

/-- Python `list.pop(i)` for `0 <= i < len` (out of range: unchanged, but
`update_file` only calls it in range). -/
def removeAt {α : Type} : List α → Nat → List α
  | [], _ => []
  | _ :: ls, 0 => ls
  | l :: ls, n + 1 => l :: removeAt ls n

/-- The carriage-return character. -/
def CR : Char := '\r'

/-- Universal-newlines translation performed by every text-mode read
(`open(path, "r")` with the default `newline=None`): each CRLF pair and
each lone CR becomes one LF. -/
def translateNL : List Char → List Char
  | [] => []
  | [c] => if c = CR then [NL] else [c]
  | c :: d :: rest =>
    if c = CR then
      if d = NL then NL :: translateNL rest
      else NL :: translateNL (d :: rest)
    else c :: translateNL (d :: rest)

/-- Helper for `readlines`: `acc` is the reversed current partial line. -/
def readlinesAux : List Char → List Char → List Content
  | [], acc => if acc.isEmpty then [] else [acc.reverse]
  | c :: rest, acc =>
    if c = NL then (acc.reverse ++ [NL]) :: readlinesAux rest []
    else readlinesAux rest (c :: acc)

/-- Python `f.readlines()` in universal-newlines text mode: CRLF and lone
CR are translated to LF, then the stream is split after every newline,
keeping the newline on each line; a final segment without a terminator
becomes a last line without one; empty content gives no lines. -/
def readlines (cs : Content) : List Content :=
  readlinesAux (translateNL cs) []

/-- Python `f.writelines(lines)`: concatenation, nothing added. -/
def writelines : List Content → Content
  | [] => []
  | l :: ls => l ++ writelines ls

/-- The body of the `for change in changes` loop of `update_file`, applied
to one change. -/
def applyChange (lines : List Content) (ch : Change) : List Content :=
  if ch.action = "replace" then
    if 0 ≤ ch.line ∧ ch.line < (lines.length : Int) then
      setAt lines ch.line.toNat (ch.content ++ [NL])
    else lines
  else if ch.action = "insert" then
    if 0 ≤ ch.line ∧ ch.line ≤ (lines.length : Int) then
      insertAt lines ch.line.toNat (ch.content ++ [NL])
    else lines
  else if ch.action = "delete" then
    if 0 ≤ ch.line ∧ ch.line < (lines.length : Int) then
      removeAt lines ch.line.toNat
    else lines
  else lines

/-- Helper for `ensure_files_exist`: walk the name list, creating each
missing file with empty content and recording it in `created` (in order). -/
def ensureAux : List String → FSt → FSt × List String
  | [], fs => (fs, [])
  | n :: rest, fs =>
    match fs n with
    | some _ => ensureAux rest fs
    | none =>
      let r := ensureAux rest (fun m => if m = n then some [] else fs m)
      (r.1, n :: r.2)

/-- `ensure_files_exist()`: create the required files if missing, return
the list of names actually created. -/
def ensure_files_exist (fs : FSt) : FSt × List String :=
  ensureAux FILES fs

/-- `read_file(file)`: the full contents as returned by the text-mode
`f.read()` (universal-newlines translation applied), or the soft error
when missing. -/
def read_file (fs : FSt) (file : String) : ToolResult :=
  match fs file with
  | none => ToolResult.error (file ++ " does not exist")
  | some c => ToolResult.readOk file (translateNL c)

/-- `write_file(file, content)`: replace the entire file content. -/
def write_file (fs : FSt) (file : String) (content : Content) :
    ToolResult × FSt :=
  (ToolResult.writeOk ("ok") file,
   fun m => if m = file then some content else fs m)

/-- `update_file(file, changes)`: soft error if the file does not exist;
otherwise split with `readlines`, fold the loop body over the batch in
order, write back with `writelines`, and echo the input batch. -/
def update_file (fs : FSt) (file : String) (changes : List Change) :
    ToolResult × FSt :=
  match fs file with
  | none => (ToolResult.error (file ++ " does not exist"), fs)
  | some c =>
    (ToolResult.updateOk ("ok") file changes,
     fun m =>
       if m = file then
         some (writelines (List.foldl applyChange (readlines c) changes))
       else fs m)

/-- `get_website_state()`: run `ensure_files_exist` first, then read all
three files with the text-mode `f.read()` (universal-newlines translation;
the `Option` records whether each open could succeed). -/
def get_website_state (fs : FSt) : List (String × Option Content) × FSt :=
  (FILES.map (fun f => (f, ((ensure_files_exist fs).1 f).map translateNL)),
   (ensure_files_exist fs).1)

/-- The soft-error message of the tool wrappers:
`f"Invalid file. Choose from: {FILES}"`, with the Python list repr. -/
def pyListRepr (l : List String) : String :=
  "[" ++ String.intercalate (", ")
    (l.map (fun s => String.singleton (Char.ofNat 39) ++ s ++
      String.singleton (Char.ofNat 39))) ++ "]"

def invalidChoiceMsg : String :=
  "Invalid file. Choose from: " ++ pyListRepr FILES

/-- `read_file_tool(file)`: reject non-canonical names, else `read_file`. -/
def read_file_tool (fs : FSt) (file : String) : ToolResult :=
  if file ∈ FILES then read_file fs file
  else ToolResult.error invalidChoiceMsg

/-- `write_file_tool(file, content)`: reject non-canonical names (leaving
the state untouched), else `write_file`. -/
def write_file_tool (fs : FSt) (file : String) (content : Content) :
    ToolResult × FSt :=
  if file ∈ FILES then write_file fs file content
  else (ToolResult.error invalidChoiceMsg, fs)

/-- `update_file_tool(file, changes)`: reject non-canonical names (leaving
the state untouched), else `update_file`. -/
def update_file_tool (fs : FSt) (file : String) (changes : List Change) :
    ToolResult × FSt :=
  if file ∈ FILES then update_file fs file changes
  else (ToolResult.error invalidChoiceMsg, fs)

/-! ### Helper lemmas -/

/-- `endsNLb cs` holds exactly when `cs` ends with a newline character. -/
def endsNLb : Content → Bool
  | [] => false
  | [c] => c = NL
  | _ :: rest => endsNLb rest

theorem endsNLb_concat (p : Content) : endsNLb (p ++ [NL]) = true := by
  induction p with
  | nil => rfl
  | cons c p ih =>
    cases p with
    | nil => rfl
    | cons q qs => exact ih

theorem endsNLb_append (a b : Content) (hb : b ≠ []) :
    endsNLb (a ++ b) = endsNLb b := by
  induction a with
  | nil => rfl
  | cons c a ih =>
    cases a with
    | nil =>
      cases b with
      | nil => exact absurd rfl hb
      | cons d t => rfl
    | cons e a2 => exact ih

theorem endsNLb_ne_nil {l : Content} (h : endsNLb l = true) : l ≠ [] := by
  intro hl
  subst hl
  exact Bool.noConfusion h

theorem writelines_readlinesAux (cs : List Char) :
    ∀ acc, writelines (readlinesAux cs acc) = acc.reverse ++ cs := by
  induction cs with
  | nil =>
    intro acc
    by_cases h : acc.isEmpty
    · have hnil : acc = [] := by simpa [List.isEmpty_iff] using h
      subst hnil
      simp [readlinesAux, writelines]
    · simp [readlinesAux, h, writelines]
  | cons c rest ih =>
    intro acc
    by_cases hc : c = NL
    · subst hc
      simp [readlinesAux, writelines, ih]
    · simp [readlinesAux, hc, writelines, ih]

/-- The Python readlines/writelines cycle persists exactly the
newline-translated content. -/
theorem writelines_readlines (cs : Content) :
    writelines (readlines cs) = translateNL cs := by
  simpa using writelines_readlinesAux (translateNL cs) []

theorem translateNL_eq_self : ∀ {cs : Content}, CR ∉ cs → translateNL cs = cs
  | [], _ => rfl
  | [c], h => by
    have hc : c ≠ CR := fun hh => h (hh ▸ List.mem_cons_self _ _)
    simp [translateNL, hc]
  | c :: d :: rest, h => by
    have hc : c ≠ CR := fun hh => h (hh ▸ List.mem_cons_self _ _)
    have h2 : CR ∉ d :: rest := fun hm => h (List.mem_cons_of_mem _ hm)
    simp [translateNL, hc, translateNL_eq_self h2]

theorem translateNL_ne_nil : ∀ {cs : Content}, cs ≠ [] → translateNL cs ≠ []
  | [], h => absurd rfl h
  | [c], _ => by
    by_cases hc : c = CR <;> simp [translateNL, hc]
  | c :: d :: rest, _ => by
    by_cases hc : c = CR
    · by_cases hd : d = NL <;> simp [translateNL, hc, hd]
    · simp [translateNL, hc]

theorem translateNL_endsNL : ∀ cs : Content, endsNLb cs = true →
    endsNLb (translateNL cs) = true
  | [], h => absurd h (by decide)
  | [c], h => by
    have hc : c = NL := of_decide_eq_true h
    subst hc
    decide
  | c :: d :: rest, h => by
    by_cases hc : c = CR
    · subst hc
      by_cases hd : d = NL
      · subst hd
        cases rest with
        | nil => decide
        | cons e rest2 =>
          have h3 : endsNLb (e :: rest2) = true := h
          have hrec : endsNLb (translateNL (e :: rest2)) = true :=
            translateNL_endsNL (e :: rest2) h3
          have hne : translateNL (e :: rest2) ≠ [] :=
            translateNL_ne_nil (List.cons_ne_nil e rest2)
          have hred : translateNL (CR :: NL :: e :: rest2)
              = NL :: translateNL (e :: rest2) := by
            simp [translateNL]
          rw [hred,
            show NL :: translateNL (e :: rest2)
                = [NL] ++ translateNL (e :: rest2) from rfl,
            endsNLb_append _ _ hne]
          exact hrec
      · have h2 : endsNLb (d :: rest) = true := h
        have hrec : endsNLb (translateNL (d :: rest)) = true :=
          translateNL_endsNL (d :: rest) h2
        have hne : translateNL (d :: rest) ≠ [] :=
          translateNL_ne_nil (List.cons_ne_nil d rest)
        have hred : translateNL (CR :: d :: rest)
            = NL :: translateNL (d :: rest) := by
          simp [translateNL, hd]
        rw [hred,
          show NL :: translateNL (d :: rest)
              = [NL] ++ translateNL (d :: rest) from rfl,
          endsNLb_append _ _ hne]
        exact hrec
    · have h2 : endsNLb (d :: rest) = true := h
      have hrec : endsNLb (translateNL (d :: rest)) = true :=
        translateNL_endsNL (d :: rest) h2
      have hne : translateNL (d :: rest) ≠ [] :=
        translateNL_ne_nil (List.cons_ne_nil d rest)
      have hred : translateNL (c :: d :: rest)
          = c :: translateNL (d :: rest) := by
        simp [translateNL, hc]
      rw [hred,
        show c :: translateNL (d :: rest)
            = [c] ++ translateNL (d :: rest) from rfl,
        endsNLb_append _ _ hne]
      exact hrec

theorem readlinesAux_endsNL (cs : List Char) :
    ∀ acc, (endsNLb cs = true ∨ (cs = [] ∧ acc = [])) →
      ∀ l ∈ readlinesAux cs acc, endsNLb l = true := by
  induction cs with
  | nil =>
    intro acc h l hl
    rcases h with h | ⟨_, rfl⟩
    · exact Bool.noConfusion h
    · simp [readlinesAux] at hl
  | cons c rest ih =>
    intro acc h l hl
    have h1 : endsNLb (c :: rest) = true := by
      rcases h with h | ⟨h, _⟩
      · exact h
      · exact List.noConfusion h
    by_cases hc : c = NL
    · subst hc
      simp only [readlinesAux, if_pos rfl] at hl
      rcases List.mem_cons.mp hl with rfl | hl
      · exact endsNLb_concat _
      · cases rest with
        | nil => exact ih [] (Or.inr ⟨rfl, rfl⟩) l hl
        | cons d t => exact ih [] (Or.inl h1) l hl
    · simp only [readlinesAux, if_neg hc] at hl
      cases rest with
      | nil =>
        exact absurd (of_decide_eq_true h1) hc
      | cons d t => exact ih (c :: acc) (Or.inl h1) l hl

theorem mem_setAt {α : Type} (ls : List α) (n : Nat) (x a : α) :
    a ∈ setAt ls n x → a = x ∨ a ∈ ls := by
  induction ls generalizing n with
  | nil => intro h; simp [setAt] at h
  | cons l ls ih =>
    intro h
    cases n with
    | zero =>
      rcases List.mem_cons.mp h with h | h
      · exact Or.inl h
      · exact Or.inr (List.mem_cons_of_mem _ h)
    | succ m =>
      rcases List.mem_cons.mp h with h | h
      · exact Or.inr (h ▸ List.mem_cons_self _ _)
      · rcases ih m h with h | h
        · exact Or.inl h
        · exact Or.inr (List.mem_cons_of_mem _ h)

theorem mem_insertAt {α : Type} (ls : List α) (n : Nat) (x a : α) :
    a ∈ insertAt ls n x → a = x ∨ a ∈ ls := by
  induction ls generalizing n with
  | nil =>
    intro h
    cases n with
    | zero => exact Or.inl (by simpa [insertAt] using h)
    | succ m => exact Or.inl (by simpa [insertAt] using h)
  | cons l ls ih =>
    intro h
    cases n with
    | zero =>
      rcases List.mem_cons.mp h with h | h
      · exact Or.inl h
      · exact Or.inr h
    | succ m =>
      rcases List.mem_cons.mp h with h | h
      · exact Or.inr (h ▸ List.mem_cons_self _ _)
      · rcases ih m h with h | h
        · exact Or.inl h
        · exact Or.inr (List.mem_cons_of_mem _ h)

theorem mem_removeAt {α : Type} (ls : List α) (n : Nat) (a : α) :
    a ∈ removeAt ls n → a ∈ ls := by
  induction ls generalizing n with
  | nil => intro h; simp [removeAt] at h
  | cons l ls ih =>
    intro h
    cases n with
    | zero => exact List.mem_cons_of_mem _ h
    | succ m =>
      rcases List.mem_cons.mp h with h | h
      · exact h ▸ List.mem_cons_self _ _
      · exact List.mem_cons_of_mem _ (ih m h)

theorem applyChange_endsNL (lines : List Content) (ch : Change)
    (h : ∀ l ∈ lines, endsNLb l = true) :
    ∀ l ∈ applyChange lines ch, endsNLb l = true := by
  intro l hl
  unfold applyChange at hl
  split_ifs at hl
  · rcases mem_setAt _ _ _ _ hl with rfl | hm
    · exact endsNLb_concat _
    · exact h l hm
  · exact h l hl
  · rcases mem_insertAt _ _ _ _ hl with rfl | hm
    · exact endsNLb_concat _
    · exact h l hm
  · exact h l hl
  · exact h l (mem_removeAt _ _ _ hl)
  · exact h l hl
  · exact h l hl

theorem foldl_applyChange_endsNL (changes : List Change) :
    ∀ lines : List Content, (∀ l ∈ lines, endsNLb l = true) →
      ∀ l ∈ List.foldl applyChange lines changes, endsNLb l = true := by
  induction changes with
  | nil => exact fun lines h => h
  | cons ch chs ih => exact fun lines h => ih _ (applyChange_endsNL _ _ h)

theorem writelines_endsNL (ls : List Content)
    (h : ∀ l ∈ ls, endsNLb l = true) (hne : ls ≠ []) :
    endsNLb (writelines ls) = true := by
  induction ls with
  | nil => exact absurd rfl hne
  | cons l ls ih =>
    cases ls with
    | nil => simpa [writelines] using h l (List.mem_cons_self _ _)
    | cons m t =>
      have hrec : endsNLb (writelines (m :: t)) = true :=
        ih (fun x hx => h x (List.mem_cons_of_mem _ hx)) (by simp)
      rw [writelines, endsNLb_append _ _ (endsNLb_ne_nil hrec)]
      exact hrec

theorem ensureAux_preserves (names : List String) (fs : FSt) (n : String)
    (c : Content) (h : fs n = some c) : (ensureAux names fs).1 n = some c := by
  induction names generalizing fs with
  | nil => exact h
  | cons m rest ih =>
    rw [ensureAux]
    cases hm : fs m with
    | some v => exact ih fs h
    | none =>
      apply ih
      by_cases hnm : n = m
      · rw [hnm, hm] at h
        exact Option.noConfusion h
      · simpa [hnm] using h

theorem ensureAux_defines (names : List String) (fs : FSt) (n : String)
    (h : n ∈ names) : ∃ c, (ensureAux names fs).1 n = some c := by
  induction names generalizing fs with
  | nil => exact absurd h (List.not_mem_nil n)
  | cons m rest ih =>
    rw [ensureAux]
    cases hm : fs m with
    | some v =>
      rcases List.mem_cons.mp h with rfl | hr
      · exact ⟨v, ensureAux_preserves rest fs n v hm⟩
      · exact ih fs hr
    | none =>
      rcases List.mem_cons.mp h with rfl | hr
      · exact ⟨[], ensureAux_preserves rest _ n [] (by simp)⟩
      · exact ih _ hr

theorem ensureAux_created_nil (names : List String) (fs : FSt)
    (h : ∀ n ∈ names, ∃ c, fs n = some c) : (ensureAux names fs).2 = [] := by
  induction names generalizing fs with
  | nil => rfl
  | cons m rest ih =>
    rw [ensureAux]
    rcases h m (List.mem_cons_self _ _) with ⟨c, hc⟩
    rw [hc]
    exact ih fs (fun n hn => h n (List.mem_cons_of_mem _ hn))

/-- An operation whose action is none of the three recognized kinds. -/
def unknownAction (ch : Change) : Prop :=
  ch.action ≠ "replace" ∧ ch.action ≠ "insert" ∧ ch.action ≠ "delete"

/-- An operation whose line index is out of range for the current line
sequence (insert accepts index = length, replace and delete do not). -/
def outOfRange (lines : List Content) (ch : Change) : Prop :=
  ch.line < 0 ∨
  (ch.action = "insert" ∧ (lines.length : Int) < ch.line) ∨
  (ch.action ≠ "insert" ∧ (lines.length : Int) ≤ ch.line)

theorem applyChange_skip (lines : List Content) (ch : Change)
    (h : unknownAction ch ∨ outOfRange lines ch) :
    applyChange lines ch = lines := by
  unfold applyChange
  rcases h with ⟨u1, u2, u3⟩ | hneg | ⟨hins, hlt⟩ | ⟨hnins, hle⟩
  · rw [if_neg u1, if_neg u2, if_neg u3]
  · split_ifs <;> first | rfl | omega
  · split_ifs <;> first | rfl | omega
  · split_ifs <;> first | rfl | omega

/-! ### Claim theorems -/

/-- C1: `update_file` processes the batch strictly in the order given,
each operation evaluated against the line sequence as already mutated by
all prior operations (the fold over the batch decomposes at every split
point), and on the 3-line file "a\nb\nc\n" the batch
[insert at 1 of X, replace at 1 of Y] persists "a\nY\nb\nc\n", i.e. the
line sequence a, Y, b, c. -/
theorem update_file_sequential_order :
    (∀ (ops₁ ops₂ : List Change) (lines : List Content),
      List.foldl applyChange lines (ops₁ ++ ops₂) =
        List.foldl applyChange (List.foldl applyChange lines ops₁) ops₂) ∧
    (update_file
        (fun n => if n = "index.html" then some ("a\nb\nc\n".data) else none)
        "index.html"
        [⟨"insert", 1, ['X']⟩, ⟨"replace", 1, ['Y']⟩]).2 "index.html"
      = some ("a\nY\nb\nc\n".data) :=
  ⟨fun ops₁ ops₂ lines => List.foldl_append _ _ _ _, by decide⟩

/-- C2 (amended): `update_file` splits with Python universal-newlines
readlines semantics: CRLF and lone CR are first translated to LF, and each
stored line keeps its trailing newline (a final segment without a
terminator becomes a last line without one); replaced and inserted lines
get exactly one newline appended; write-back is plain concatenation.
Consequently, when the existing content is empty or ends with a newline,
the persisted content is the concatenation of the processed line sequence
and ends with a newline whenever that sequence is non-empty. -/
theorem update_file_trailing_newline (fs : FSt) (file : String)
    (changes : List Change) (c : Content) (h : fs file = some c)
    (hnl : c = [] ∨ endsNLb c = true) :
    (update_file fs file changes).2 file =
      some (writelines (List.foldl applyChange (readlines c) changes)) ∧
    (List.foldl applyChange (readlines c) changes ≠ [] →
      endsNLb (writelines (List.foldl applyChange (readlines c) changes))
        = true) := by
  constructor
  · unfold update_file
    rw [h]
    simp
  · intro hne
    apply writelines_endsNL _ _ hne
    apply foldl_applyChange_endsNL
    apply readlinesAux_endsNL
    rcases hnl with rfl | hnl
    · exact Or.inr ⟨rfl, rfl⟩
    · exact Or.inl (translateNL_endsNL c hnl)

theorem update_file_trailing_newline_witness :
    (update_file
        (fun n => if n = "index.html" then some ("ab\n".data) else none)
        "index.html" [⟨"insert", 0, ['Z']⟩]).2 "index.html" =
      some (writelines (List.foldl applyChange (readlines ("ab\n".data))
        [⟨"insert", 0, ['Z']⟩])) ∧
    (List.foldl applyChange (readlines ("ab\n".data)) [⟨"insert", 0, ['Z']⟩] ≠ [] →
      endsNLb (writelines (List.foldl applyChange (readlines ("ab\n".data))
        [⟨"insert", 0, ['Z']⟩])) = true) :=
  update_file_trailing_newline _ "index.html" [⟨"insert", 0, ['Z']⟩]
    ("ab\n".data) (by decide) (Or.inr (by decide))

/-- C2 counterexample: the claim as stated fails: for the existing content
"abc" (no trailing newline) and the empty batch, the in-memory line is
"abc" itself with no newline stripped, and the persisted content is "abc",
which does not end with a newline although the resulting line sequence is
non-empty. -/
theorem update_file_trailing_newline_counterexample :
    (update_file
        (fun n => if n = "index.html" then some ("abc".data) else none)
        "index.html" []).2 "index.html" = some ("abc".data) ∧
    readlines ("abc".data) = [("abc".data)] ∧
    readlines ("abc".data) ≠ [] ∧
    endsNLb ("abc".data) = false := by decide

/-- C3: ensure never overwrites existing content; a second consecutive
call reports `created = []`; and on a fresh project the first call reports
all three names created (so `created` is non-empty exactly on the first
call against a fresh project). -/
theorem ensure_idempotent_no_overwrite :
    (∀ (fs : FSt) (n : String) (c : Content), fs n = some c →
      (ensure_files_exist fs).1 n = some c) ∧
    (∀ fs : FSt, (ensure_files_exist (ensure_files_exist fs).1).2 = []) ∧
    (ensure_files_exist freshFS).2 = FILES ∧ FILES ≠ [] := by
  refine ⟨fun fs n c h => ensureAux_preserves FILES fs n c h,
    fun fs => ?_, by decide, by decide⟩
  exact ensureAux_created_nil FILES _
    (fun n hn => ensureAux_defines FILES fs n hn)

theorem ensure_idempotent_no_overwrite_witness :
    (ensure_files_exist
      (fun m => if m = "index.html" then some ['x'] else none)).1 "index.html"
      = some ['x'] :=
  ensure_idempotent_no_overwrite.1 _ "index.html" ['x'] (by decide)

/-- C4 (amended): write round-trip: for a canonical name, the content C is
persisted verbatim, and reading the file back returns C with the text-mode
universal-newlines translation applied (CRLF and lone CR become LF); when
C contains no carriage return the returned content is exactly C,
byte-for-byte. -/
theorem write_read_roundtrip (fs : FSt) (file : String) (h : file ∈ FILES)
    (c : Content) :
    (write_file_tool fs file c).2 file = some c ∧
    read_file_tool (write_file_tool fs file c).2 file
      = ToolResult.readOk file (translateNL c) ∧
    (CR ∉ c →
      read_file_tool (write_file_tool fs file c).2 file
        = ToolResult.readOk file c) := by
  have h1 : (write_file_tool fs file c).2 file = some c := by
    rw [write_file_tool, if_pos h]
    simp [write_file]
  have h2 : read_file_tool (write_file_tool fs file c).2 file
      = ToolResult.readOk file (translateNL c) := by
    rw [write_file_tool, if_pos h, read_file_tool, if_pos h]
    simp [write_file, read_file]
  refine ⟨h1, h2, fun hcr => ?_⟩
  rw [translateNL_eq_self hcr] at h2
  exact h2

theorem write_read_roundtrip_witness :
    (write_file_tool freshFS "index.html" ("<h1>Hi</h1>".data)).2 "index.html"
      = some ("<h1>Hi</h1>".data) ∧
    read_file_tool (write_file_tool freshFS "index.html"
        ("<h1>Hi</h1>".data)).2 "index.html"
      = ToolResult.readOk "index.html" (translateNL ("<h1>Hi</h1>".data)) ∧
    (CR ∉ ("<h1>Hi</h1>".data) →
      read_file_tool (write_file_tool freshFS "index.html"
          ("<h1>Hi</h1>".data)).2 "index.html"
        = ToolResult.readOk "index.html" ("<h1>Hi</h1>".data)) :=
  write_read_roundtrip freshFS "index.html" (by decide) _

/-- C4 counterexample: the claim as stated fails: write "x\ry" to a
canonical file, and reading it back returns "x\ny" (the text-mode read
translates the carriage return), not the written content byte-for-byte. -/
theorem write_read_roundtrip_counterexample :
    read_file_tool (write_file_tool freshFS "index.html"
        ("x\ry".data)).2 "index.html"
      = ToolResult.readOk "index.html" ("x\ny".data) ∧
    ("x\ny".data) ≠ ("x\ry".data) := by decide

/-- C5: an operation whose line index is out of range for its action, or
whose action is not replace/insert/delete, is silently skipped: it leaves
the line sequence unchanged and the rest of the batch still applies. -/
theorem skip_invalid_operation (lines : List Content) (ch : Change)
    (rest : List Change) (h : unknownAction ch ∨ outOfRange lines ch) :
    applyChange lines ch = lines ∧
    List.foldl applyChange lines (ch :: rest)
      = List.foldl applyChange lines rest := by
  have hs : applyChange lines ch = lines := applyChange_skip lines ch h
  exact ⟨hs, by rw [List.foldl_cons, hs]⟩

theorem skip_invalid_operation_witness :
    applyChange [("a\n".data), ("b\n".data), ("c\n".data)]
        ⟨"delete", 999, []⟩
      = [("a\n".data), ("b\n".data), ("c\n".data)] ∧
    List.foldl applyChange [("a\n".data), ("b\n".data), ("c\n".data)]
        [⟨"delete", 999, []⟩, ⟨"replace", 0, ['Z']⟩]
      = List.foldl applyChange [("a\n".data), ("b\n".data), ("c\n".data)]
        [⟨"replace", 0, ['Z']⟩] :=
  skip_invalid_operation _ ⟨"delete", 999, []⟩ [⟨"replace", 0, ['Z']⟩]
    (Or.inr (Or.inr (Or.inr ⟨by decide, by decide⟩)))

/-- C6: for a non-canonical name, the read, write and update tools all
return the soft error listing the valid names and leave every file
untouched; the message is the literal list of valid names. -/
theorem invalid_name_soft_error (fs : FSt) (file : String)
    (h : file ∉ FILES) (c : Content) (changes : List Change) :
    read_file_tool fs file = ToolResult.error invalidChoiceMsg ∧
    write_file_tool fs file c = (ToolResult.error invalidChoiceMsg, fs) ∧
    update_file_tool fs file changes
      = (ToolResult.error invalidChoiceMsg, fs) ∧
    invalidChoiceMsg = "Invalid file. Choose from: " ++ pyListRepr FILES := by
  refine ⟨?_, ?_, ?_, rfl⟩ <;>
    simp [read_file_tool, write_file_tool, update_file_tool, h]

theorem invalid_name_soft_error_witness :
    read_file_tool freshFS "nope.txt" = ToolResult.error invalidChoiceMsg ∧
    write_file_tool freshFS "nope.txt" []
      = (ToolResult.error invalidChoiceMsg, freshFS) ∧
    update_file_tool freshFS "nope.txt" []
      = (ToolResult.error invalidChoiceMsg, freshFS) ∧
    invalidChoiceMsg = "Invalid file. Choose from: " ++ pyListRepr FILES :=
  invalid_name_soft_error freshFS "nope.txt" (by decide) [] []

/-- C7: the snapshot operation ensures existence first, so every returned
entry carries a content; the returned keys are exactly the three canonical
names; and on a fresh project every artifact content is empty. -/
theorem snapshot_complete :
    (∀ (fs : FSt) (p : String × Option Content),
      p ∈ (get_website_state fs).1 → ∃ c, p.2 = some c) ∧
    (∀ fs : FSt, ((get_website_state fs).1).map Prod.fst = FILES) ∧
    (get_website_state freshFS).1 =
      [("index.html", some []), ("styles.css", some []),
       ("script.js", some [])] := by
  refine ⟨?_, fun fs => rfl, by decide⟩
  intro fs p hp
  simp only [get_website_state, List.mem_map] at hp
  rcases hp with ⟨f, hf, rfl⟩
  rcases ensureAux_defines FILES fs f hf with ⟨v, hv⟩
  have hv2 : (ensure_files_exist fs).1 f = some v := hv
  exact ⟨translateNL v, by simp [hv2]⟩

theorem snapshot_complete_witness :
    ∃ c, (("index.html", (some [] : Option Content))).2 = some c :=
  snapshot_complete.1 freshFS ("index.html", some []) (by decide)

/-- C8: `update_file` on a missing file returns the soft error record with
the state completely unchanged; on an existing file it returns status ok
with the file name and the echoed original batch. -/
theorem update_file_result (fs : FSt) (file : String)
    (changes : List Change) :
    (fs file = none →
      update_file fs file changes
        = (ToolResult.error (file ++ " does not exist"), fs)) ∧
    (fs file ≠ none →
      (update_file fs file changes).1
        = ToolResult.updateOk ("ok") file changes) := by
  constructor
  · intro h
    unfold update_file
    rw [h]
  · intro h
    cases hc : fs file with
    | none => exact absurd hc h
    | some v =>
      unfold update_file
      rw [hc]

theorem update_file_result_witness :
    (update_file freshFS "index.html" []
      = (ToolResult.error ("index.html does not exist"), freshFS)) :=
  (update_file_result freshFS "index.html" []).1 rfl

/-- C9: frame property: `write_file` and `update_file` addressed to file X
leave the content of every other file unchanged. -/
theorem write_update_frame (fs : FSt) (X other : String) (_hX : X ∈ FILES)
    (hne : other ≠ X) (c : Content) (changes : List Change) :
    (write_file fs X c).2 other = fs other ∧
    (update_file fs X changes).2 other = fs other := by
  constructor
  · simp [write_file, hne]
  · unfold update_file
    cases h : fs X with
    | none => rfl
    | some v => simp [hne]

theorem write_update_frame_witness :
    (write_file freshFS "index.html" ['x']).2 "styles.css"
      = freshFS "styles.css" ∧
    (update_file freshFS "index.html" []).2 "styles.css"
      = freshFS "styles.css" :=
  write_update_frame freshFS "index.html" "styles.css" (by decide)
    (by decide) ['x'] []

/-- C10 (amended): with an empty batch, `update_file` returns status ok
and persists the newline-translated content (CRLF and lone CR become LF);
when the existing content contains no carriage return, the whole state is
byte-for-byte unchanged: the readlines/writelines cycle with no operations
is then the identity on content. -/
theorem update_file_empty_batch (fs : FSt) (file : String) (c : Content)
    (h : fs file = some c) :
    (update_file fs file []).1 = ToolResult.updateOk ("ok") file [] ∧
    (update_file fs file []).2 file = some (translateNL c) ∧
    (CR ∉ c → ∀ m, (update_file fs file []).2 m = fs m) := by
  unfold update_file
  rw [h]
  refine ⟨rfl, ?_, fun hcr m => ?_⟩
  · simp [writelines_readlines]
  · by_cases hm : m = file
    · subst hm
      simp [writelines_readlines, translateNL_eq_self hcr, h]
    · simp [hm]

theorem update_file_empty_batch_witness :
    (update_file (fun n => if n = "index.html" then some ("abc".data)
        else none) "index.html" []).1
      = ToolResult.updateOk ("ok") "index.html" [] ∧
    (update_file (fun n => if n = "index.html" then some ("abc".data)
        else none) "index.html" []).2 "index.html"
      = some (translateNL ("abc".data)) ∧
    (CR ∉ ("abc".data) →
      ∀ m, (update_file (fun n => if n = "index.html" then some ("abc".data)
          else none) "index.html" []).2 m
        = (fun n => if n = "index.html" then some ("abc".data) else none) m) :=
  update_file_empty_batch _ "index.html" ("abc".data) (by decide)

/-- C10 counterexample: the claim as stated fails: the artifact "a\r\nb"
with an empty batch is rewritten to "a\nb" — the read/write cycle with no
operations changed the persisted bytes. -/
theorem update_file_empty_batch_counterexample :
    (update_file (fun n => if n = "index.html" then some ("a\r\nb".data)
        else none) "index.html" []).2 "index.html" = some ("a\nb".data) ∧
    ("a\nb".data) ≠ ("a\r\nb".data) := by decide
